import Mathlib

/-!
Verification of the go-shadow/router repository (src/router.go).

The Go source is shallowly embedded: Go strings are Lean `String`s
(operated on through their `List Char` data), Go maps with a fixed key set
become structures, pointer-typed "maybe absent" values become `Option`,
and Go's `regexp` library calls are modelled by a small regex parser and a
backtracking (leftmost-first) matcher covering exactly the syntax the
router generates, mirroring Go's non-POSIX leftmost-first submatch
semantics.  Mutating methods are modelled as functions returning the
updated `Router`.
-/

namespace GoRouter

/-! ## Go string helpers (package strings / strconv) -/

/-- Model of Go `strings.Replace(s, old, new, -1)` on character lists:
replace every non-overlapping leftmost occurrence.  Structurally recursive
on a fuel that the wrapper instantiates with the string length (every step
consumes at least one character, so the fuel never runs out). -/
def goReplaceAllL : Nat → List Char → List Char → List Char → List Char
  | 0, s, _, _ => s
  | fuel + 1, s, old, new =>
    match s with
    | [] => []
    | c :: rest =>
      if old ≠ [] ∧ old.isPrefixOf (c :: rest) = true then
        new ++ goReplaceAllL fuel ((c :: rest).drop old.length) old new
      else
        c :: goReplaceAllL fuel rest old new

/-- Model of Go `strings.Replace(s, old, new, 1)`: replace only the first
occurrence. -/
def goReplaceOnceL : List Char → List Char → List Char → List Char
  | [], _, _ => []
  | c :: rest, old, new =>
    if old ≠ [] ∧ old.isPrefixOf (c :: rest) = true then
      new ++ (c :: rest).drop old.length
    else
      c :: goReplaceOnceL rest old new

def goReplaceAll (s old new : String) : String :=
  ⟨goReplaceAllL (s.data.length + 1) s.data old.data new.data⟩

def goReplaceOnce (s old new : String) : String :=
  ⟨goReplaceOnceL s.data old.data new.data⟩

/-- Go `strings.TrimLeft(s, cutset)`. -/
def goTrimLeft (s cut : String) : String :=
  ⟨s.data.dropWhile (fun c => cut.data.contains c)⟩

/-- Go `strings.TrimRight(s, cutset)`. -/
def goTrimRight (s cut : String) : String :=
  ⟨(s.data.reverse.dropWhile (fun c => cut.data.contains c)).reverse⟩

/-- Go `strings.ToUpper` restricted to ASCII (all methods in the source are
ASCII strings). -/
def charUpper (c : Char) : Char :=
  if 'a' ≤ c ∧ c ≤ 'z' then Char.ofNat (c.toNat - 32) else c

def goToUpper (s : String) : String := ⟨s.data.map charUpper⟩

/-- Decimal digits of a natural number (fuelled by the number itself). -/
def natStrAux (fuel n : Nat) (acc : List Char) : List Char :=
  match fuel with
  | 0 => acc
  | fuel + 1 =>
    let d := Char.ofNat (48 + n % 10)
    if n < 10 then d :: acc else natStrAux fuel (n / 10) (d :: acc)

def natStr (n : Nat) : String := ⟨natStrAux (n + 1) n []⟩

/-- Go `strconv.Itoa`. -/
def itoa (n : Int) : String :=
  if n < 0 then "-" ++ natStr n.natAbs else natStr n.natAbs

def digitsVal (l : List Char) : Nat :=
  l.foldl (fun a c => a * 10 + (c.toNat - 48)) 0

/-- Go `strconv.Atoi` on a 64-bit platform: optional sign, at least one
digit, all digits, result must fit in int64; any failure is an error
(`none`). -/
def goAtoi (s : String) : Option Int :=
  let p : Int × List Char :=
    match s.data with
    | '+' :: r => (1, r)
    | '-' :: r => (-1, r)
    | r => (1, r)
  if p.2 = [] then none
  else if p.2.all Char.isDigit then
    let v : Int := p.1 * (digitsVal p.2 : Nat)
    if v < -(2 ^ 63) ∨ 2 ^ 63 - 1 < v then none else some v
  else none

/-! ## Pattern compilation (newRoute, src/router.go lines 53-77)

The two fixed regexes of `newRoute`,
`:([a-zA-Z0-9_]+)` ("named") and `:([a-zA-Z0-9_]+)\(([^\)]+)\)`
("namedRegex"), are embedded as the deterministic scanners below: both
regexes are scanned left to right for non-overlapping matches, the
identifier run and the constraint run are maximal munches (backtracking
cannot shorten them, since the character that follows the run can never
re-match the run's class). -/

def isIdentChar (c : Char) : Bool :=
  (decide ('a' ≤ c) && decide (c ≤ 'z')) || (decide ('A' ≤ c) && decide (c ≤ 'Z')) ||
    (decide ('0' ≤ c) && decide (c ≤ '9')) || (c == '_')

/-- Try to read `name(constraint)` (the part of a `namedRegex` match after
the colon) at the head of `rest`; returns the name, the constraint and the
number of characters consumed from `rest`. -/
def readNamedConstr (rest : List Char) : Option (List Char × List Char × Nat) :=
  let name := rest.takeWhile isIdentChar
  if name.isEmpty then none
  else
    match rest.drop name.length with
    | '(' :: r2 =>
      let con := r2.takeWhile (fun c => c != ')')
      if con.isEmpty then none
      else
        match r2.drop con.length with
        | ')' :: _ => some (name, con, name.length + 1 + con.length + 1)
        | _ => none
    | _ => none

/-- `namedRegex.ReplaceAllString` with a replacement template built by
`tmpl` from the two capture groups (fuelled as `goReplaceAllL`). -/
def replaceNamedConstrL (tmpl : List Char → List Char → List Char) :
    Nat → List Char → List Char
  | 0, s => s
  | fuel + 1, s =>
    match s with
    | [] => []
    | ':' :: rest =>
      match readNamedConstr rest with
      | some (n, con, k) => tmpl n con ++ replaceNamedConstrL tmpl fuel (rest.drop k)
      | none => ':' :: replaceNamedConstrL tmpl fuel rest
    | c :: rest => c :: replaceNamedConstrL tmpl fuel rest

def replaceNamedConstr (tmpl : List Char → List Char → List Char)
    (s : List Char) : List Char :=
  replaceNamedConstrL tmpl (s.length + 1) s

/-- `namedRegex.MatchString`. -/
def hasNamedConstr : List Char → Bool
  | [] => false
  | ':' :: rest => (readNamedConstr rest).isSome || hasNamedConstr rest
  | _ :: rest => hasNamedConstr rest

/-- `named.ReplaceAllString(pattern, "(?P<$1>[^/]+)")` (fuelled as
`goReplaceAllL`). -/
def replaceBareNamedL : Nat → List Char → List Char
  | 0, s => s
  | fuel + 1, s =>
    match s with
    | [] => []
    | ':' :: rest =>
      let name := rest.takeWhile isIdentChar
      if name.isEmpty then ':' :: replaceBareNamedL fuel rest
      else "(?P<".data ++ name ++ ">[^/]+)".data ++
        replaceBareNamedL fuel (rest.drop name.length)
    | c :: rest => c :: replaceBareNamedL fuel rest

def replaceBareNamed (s : List Char) : List Char :=
  replaceBareNamedL (s.length + 1) s

/-! ## Data model -/

/-- Go `Handler = interface{}`: an opaque callable, or (because Go's
`interface{}` can also box a whole `[]Handler` slice, which `Post`/`Put`/
`Delete` exploit) a slice of handlers. -/
inductive Handler where
  | fn (id : Nat)
  | slice (hs : List Handler)

structure Route where
  method : String
  Name : String
  pattern : String
  basePattern : String
  Handlers : List Handler

def groupTmpl (n con : List Char) : List Char :=
  "(?P<".data ++ n ++ ">".data ++ con ++ ")".data

def baseTmpl (n _con : List Char) : List Char := ':' :: n

/-- src/router.go lines 54-77. -/
def newRoute (method name pattern : String) (handlers : List Handler) : Route :=
  let p1 := goReplaceAll pattern "(int)" "([0-9]+)"
  let p2 := goReplaceAll p1 "(alpha)" "([a-z]+)"
  let p3 := goReplaceAll p2 "(alphanumeric)" "([a-z0-9]+)"
  let p4 := goReplaceAll p3 "(slug)" "([a-z0-9-]+)"
  let p5 := goReplaceAll p4 "(mongo)" "([0-9a-fA-F]\x7b24\x7d)"
  let p6 := goReplaceAll p5 "(md5)" "([0-9a-fA-F]\x7b32\x7d)"
  let basePattern : String := ⟨replaceNamedConstr baseTmpl p6.data⟩
  let pat : String :=
    if hasNamedConstr p6.data then ⟨replaceNamedConstr groupTmpl p6.data⟩
    else ⟨replaceBareNamed p6.data⟩
  { method := goToUpper method, Name := name, pattern := pat,
    basePattern := basePattern, Handlers := handlers }

/-- The per-method maps of the router; Go initialises them with exactly the
keys GET, POST, PUT, DELETE and `addRoute` is only called with these. -/
structure MethodMap (α : Type) where
  get : α
  post : α
  put : α
  delete : α

def MethodMap.find {α : Type} (m : MethodMap α) (k : String) (dflt : α) : α :=
  if k = "GET" then m.get
  else if k = "POST" then m.post
  else if k = "PUT" then m.put
  else if k = "DELETE" then m.delete
  else dflt

def MethodMap.adjust {α : Type} (m : MethodMap α) (k : String) (f : α → α) :
    MethodMap α :=
  if k = "GET" then { m with get := f m.get }
  else if k = "POST" then { m with post := f m.post }
  else if k = "PUT" then { m with put := f m.put }
  else if k = "DELETE" then { m with delete := f m.delete }
  else m

/-- Go map insertion `m[k] = v` on an association list. -/
def setAssoc {β : Type} (l : List (String × β)) (k : String) (v : β) :
    List (String × β) :=
  if l.any (fun p => p.1 == k) then
    l.map (fun p => if p.1 == k then (k, v) else p)
  else l ++ [(k, v)]

/-- src/router.go lines 33-51.  The `group` map only ever holds the keys
"name" and "prefix" (fields `groupN` and `groupP`, empty string when
unset, matching Go's zero value for absent keys). -/
structure Router where
  validExtensions : List String
  routes : List (String × Route)
  routesByMethod : MethodMap (List Route)
  regexesByMethod : MethodMap (List String)
  matched : Option Route
  groupN : String
  groupP : String

/-- src/router.go lines 80-105. -/
def New : Router :=
  { validExtensions := [""], routes := [],
    routesByMethod := ⟨[], [], [], []⟩, regexesByMethod := ⟨[], [], [], []⟩,
    matched := none, groupN := "", groupP := "" }

/-- src/router.go lines 150-165. -/
def Router.addRoute (r : Router) (method name pattern : String)
    (handlers : List Handler) : Router × Route :=
  let name1 := if r.groupN ≠ "" then r.groupN ++ "_" ++ name else name
  let pattern1 := if r.groupP ≠ "" then r.groupP ++ pattern else pattern
  let route := newRoute method name1 pattern1 handlers
  ({ r with
      routes := setAssoc r.routes name1 route,
      routesByMethod := r.routesByMethod.adjust method (fun l => l ++ [route]) },
    route)

/-- src/router.go lines 130-132: `Get` spreads its variadic handlers. -/
def Router.Get (r : Router) (name pattern : String) (handlers : List Handler) :
    Router × Route :=
  r.addRoute "GET" name pattern handlers

/-- src/router.go lines 135-137: `Post` passes the whole `handlers` slice as
a single variadic argument, so `addRoute` receives a one-element slice. -/
def Router.Post (r : Router) (name pattern : String) (handlers : List Handler) :
    Router × Route :=
  r.addRoute "POST" name pattern [Handler.slice handlers]

/-- src/router.go lines 140-142. -/
def Router.Put (r : Router) (name pattern : String) (handlers : List Handler) :
    Router × Route :=
  r.addRoute "PUT" name pattern [Handler.slice handlers]

/-- src/router.go lines 145-147. -/
def Router.Delete (r : Router) (name pattern : String) (handlers : List Handler) :
    Router × Route :=
  r.addRoute "DELETE" name pattern [Handler.slice handlers]

/-- src/router.go lines 168-172. -/
def Router.FindRoute (r : Router) (name : String) : Option Route :=
  r.routes.lookup name

/-- src/router.go lines 175-179. -/
def Router.ValidExtensions (r : Router) (exts : List String) : Router :=
  { r with validExtensions := exts }

/-- The inner loop of `Compile` for one method: threads the accumulated
`pattern` string (never reset after a chunk is closed, exactly as in the
source) and the list of compiled chunk patterns. -/
def compileMethod (routes : List Route) : List String :=
  let res :=
    routes.enum.foldl
      (fun (acc : String × List String) ir =>
        let pat := acc.1 ++ "(?P<" ++ ir.2.Name ++ ">/)" ++
          goTrimLeft ir.2.pattern "/" ++ "|"
        if ir.1 > 0 ∧ ir.1 % 15 = 0 then
          let closed := "^(?:" ++ goTrimRight pat "|" ++ ")$"
          (closed, acc.2 ++ [closed])
        else (pat, acc.2))
      ("", [])
  res.2 ++ ["^(?:" ++ goTrimRight res.1 "|" ++ ")$"]

/-- src/router.go lines 182-201: note that the compiled chunks are appended
to the existing `regexesByMethod` entries (the map iteration order is
irrelevant because the four methods are independent). -/
def Router.Compile (r : Router) : Router :=
  { r with
    regexesByMethod :=
      { get := r.regexesByMethod.get ++ compileMethod r.routesByMethod.get,
        post := r.regexesByMethod.post ++ compileMethod r.routesByMethod.post,
        put := r.regexesByMethod.put ++ compileMethod r.routesByMethod.put,
        delete := r.regexesByMethod.delete ++ compileMethod r.routesByMethod.delete } }

/-- src/router.go lines 204-212. -/
def Router.extensionIsValid (r : Router) (e : String) : Bool :=
  r.validExtensions.contains e

/-- src/router.go lines 295-303: `Group` overwrites the two group slots,
runs the callback, then resets both slots to the empty string. -/
def Router.Group (r : Router) (pre name : String) (fn : Router → Router) :
    Router :=
  let r1 := { r with groupP := goTrimRight pre "/", groupN := goTrimRight name "_" }
  let r2 := fn r1
  { r2 with groupP := "", groupN := "" }

/-- Values passed to the variadic `interface{}` parameters of `URL`. -/
inductive UrlArg where
  | s (v : String)
  | i (n : Int)

/-- src/router.go lines 108-127.  `none` models the panic of the
`params[key-1].(string)` type assertion when the name position does not
hold a string. -/
def Route.URL (r : Route) (args : List UrlArg) : Option String :=
  args.enum.foldl
    (fun acc kv =>
      match acc with
      | none => none
      | some url =>
        if kv.1 % 2 = 0 then some url
        else
          match args.get? (kv.1 - 1) with
          | some (UrlArg.s nm) =>
            match kv.2 with
            | UrlArg.i n => some (goReplaceAll url (":" ++ nm) (itoa n))
            | UrlArg.s sv => some (goReplaceAll url (":" ++ nm) sv)
          | _ => none)
    (some r.basePattern)

/-- src/router.go lines 271-279. -/
def Router.URL (r : Router) (name : String) (args : List UrlArg) : Option String :=
  match r.FindRoute name with
  | some route => route.URL args
  | none => some ""

/-! ## A model of Go's regexp library

The router hands `regexp.MustCompile` two kinds of strings: the fixed
extension regex of `Dispatch` and the chunk alternations built by
`Compile` from route fragments.  The abstract syntax and the recursive
descent parser below cover exactly that syntax (anchors, literals,
escapes, `.`, character classes with ranges and negation, `+` and
`\x7bn\x7d` counted repetition, alternation, non-capturing groups and
(named) capture groups).  Go's default engine implements leftmost-first
(Perl-style, not POSIX-longest) matching; the matcher reproduces it by
producing candidate matches in backtracking order. -/

inductive Regex where
  | eps
  | lit (c : Char)
  | cls (neg : Bool) (ranges : List (Char × Char))
  | seq (a b : Regex)
  | alt (a b : Regex)
  | plus (r : Regex)
  | repn (r : Regex) (n : Nat)
  | grp (name : String) (r : Regex)
  | bol
  | eol
deriving DecidableEq

/-- Parse the items of a character class up to the closing bracket. -/
def pClsItem (fuel : Nat) (s : List Char) : Option (List (Char × Char) × List Char) :=
  match fuel with
  | 0 => none
  | fuel + 1 =>
    match s with
    | ']' :: s1 => some ([], s1)
    | s0 =>
      let read : Option (Char × List Char) :=
        match s0 with
        | '\\' :: c :: r => some (c, r)
        | c :: r => some (c, r)
        | [] => none
      match read with
      | none => none
      | some (c0, r) =>
        match r with
        | '-' :: d :: r2 =>
          if d = ']' then
            match pClsItem fuel r with
            | some (rs, rest) => some ((c0, c0) :: rs, rest)
            | none => none
          else
            match pClsItem fuel r2 with
            | some (rs, rest) => some ((c0, d) :: rs, rest)
            | none => none
        | _ =>
          match pClsItem fuel r with
          | some (rs, rest) => some ((c0, c0) :: rs, rest)
          | none => none

/-- Postfix quantifiers: `+` and counted repetition. -/
def pQuant (a : Regex) (s : List Char) : Regex × List Char :=
  match s with
  | '+' :: s1 => (Regex.plus a, s1)
  | c :: s1 =>
    if c = Char.ofNat 123 then
      let ds := s1.takeWhile Char.isDigit
      match s1.drop ds.length with
      | d :: s2 =>
        if d = Char.ofNat 125 ∧ ds ≠ [] then (Regex.repn a (digitsVal ds), s2)
        else (a, s)
      | [] => (a, s)
    else (a, s)
  | [] => (a, [])

/-- The three nonterminals of the recursive descent parser: alternation,
concatenation, single (quantified) atom. -/
inductive PMode where
  | palt
  | pcat
  | patom

/-- One recursive descent parser for the three nonterminals, structurally
recursive on a fuel that strictly decreases on every call (the wrapper
supplies more than enough). -/
def parseStep : Nat → PMode → List Char → Option (Regex × List Char)
  | 0, _, _ => none
  | fuel + 1, PMode.palt, s =>
    match parseStep fuel PMode.pcat s with
    | none => none
    | some (r1, s1) =>
      match s1 with
      | '|' :: s2 =>
        match parseStep fuel PMode.palt s2 with
        | some (r2, s3) => some (Regex.alt r1 r2, s3)
        | none => none
      | _ => some (r1, s1)
  | fuel + 1, PMode.pcat, s =>
    match s with
    | [] => some (Regex.eps, [])
    | ')' :: _ => some (Regex.eps, s)
    | '|' :: _ => some (Regex.eps, s)
    | _ =>
      match parseStep fuel PMode.patom s with
      | none => none
      | some (a, s1) =>
        let q := pQuant a s1
        match parseStep fuel PMode.pcat q.2 with
        | none => none
        | some (rest, s3) => some (Regex.seq q.1 rest, s3)
  | fuel + 1, PMode.patom, s =>
    match s with
    | '^' :: s1 => some (Regex.bol, s1)
    | '$' :: s1 => some (Regex.eol, s1)
    | '\\' :: c :: s1 => some (Regex.lit c, s1)
    | '.' :: s1 => some (Regex.cls true [('\n', '\n')], s1)
    | '[' :: '^' :: s1 =>
      match pClsItem (s1.length + 1) s1 with
      | some (rs, rest) => some (Regex.cls true rs, rest)
      | none => none
    | '[' :: s1 =>
      match pClsItem (s1.length + 1) s1 with
      | some (rs, rest) => some (Regex.cls false rs, rest)
      | none => none
    | '(' :: '?' :: ':' :: s1 =>
      match parseStep fuel PMode.palt s1 with
      | some (r, ')' :: s2) => some (r, s2)
      | _ => none
    | '(' :: '?' :: 'P' :: '<' :: s1 =>
      let nm := s1.takeWhile (fun c => c != '>')
      match s1.drop nm.length with
      | '>' :: s2 =>
        match parseStep fuel PMode.palt s2 with
        | some (r, ')' :: s3) => some (Regex.grp ⟨nm⟩ r, s3)
        | _ => none
      | _ => none
    | '(' :: s1 =>
      match parseStep fuel PMode.palt s1 with
      | some (r, ')' :: s2) => some (Regex.grp "" r, s2)
      | _ => none
    | c :: s1 => some (Regex.lit c, s1)
    | [] => none

/-- Model of `regexp.MustCompile`: `none` models the panic on a pattern
this grammar does not accept. -/
def parseRegex (s : String) : Option Regex :=
  match parseStep (4 * s.data.length + 16) PMode.palt s.data with
  | some (r, []) => some r
  | _ => none

/-- The submatch state: captured text by group name (Go reports `""` both
for an unparticipating group and for an empty capture; lookups below
default to `""` accordingly). -/
abbrev Caps := List (String × String)

def clsMatch (neg : Bool) (rs : List (Char × Char)) (d : Char) : Bool :=
  let m := rs.any (fun r => decide (r.1 ≤ d) && decide (d ≤ r.2))
  if neg then !m else m

def strSub (inp : List Char) (i j : Nat) : String := ⟨(inp.drop i).take (j - i)⟩

/-- Greedy iteration of a matcher `m`, zero or more further times (longer
first), requiring progress on every step; `fuel` bounds the iteration
count and is always instantiated large enough to be irrelevant (every
productive step advances the position by at least one). -/
def starLoop (m : List Char → Nat → Caps → List (Nat × Caps)) :
    Nat → List Char → Nat → Caps → List (Nat × Caps)
  | 0, _, p, c => [(p, c)]
  | fuel + 1, inp, p, c =>
    ((m inp p c).filter (fun pc => p < pc.1)).flatMap
      (fun pc => starLoop m fuel inp pc.1 pc.2) ++ [(p, c)]

/-- `n`-fold sequential iteration of a matcher `m` (counted repetition). -/
def repLoop (m : List Char → Nat → Caps → List (Nat × Caps)) :
    Nat → List Char → Nat → Caps → List (Nat × Caps)
  | 0, _, p, c => [(p, c)]
  | n + 1, inp, p, c =>
    (m inp p c).flatMap (fun pc => repLoop m n inp pc.1 pc.2)

/-- All ways to match `r` against `inp` starting at position `p`, as
(end position, captures) pairs in the order a leftmost-first backtracking
engine explores them (so the head is the match Go reports). -/
def rxm : Regex → List Char → Nat → Caps → List (Nat × Caps)
  | Regex.eps, _, p, c => [(p, c)]
  | Regex.lit ch, inp, p, c =>
    match inp[p]? with
    | some d => if d = ch then [(p + 1, c)] else []
    | none => []
  | Regex.cls neg rs, inp, p, c =>
    match inp[p]? with
    | some d => if clsMatch neg rs d then [(p + 1, c)] else []
    | none => []
  | Regex.seq a b, inp, p, c =>
    (rxm a inp p c).flatMap (fun pc => rxm b inp pc.1 pc.2)
  | Regex.alt a b, inp, p, c => rxm a inp p c ++ rxm b inp p c
  | Regex.plus r, inp, p, c =>
    (rxm r inp p c).flatMap
      (fun pc =>
        if p < pc.1 then
          starLoop (fun inp1 p1 c1 => rxm r inp1 p1 c1) (inp.length + 1) inp pc.1 pc.2
        else [pc])
  | Regex.repn r n, inp, p, c =>
    repLoop (fun inp1 p1 c1 => rxm r inp1 p1 c1) n inp p c
  | Regex.grp nm r, inp, p, c =>
    (rxm r inp p c).map (fun pc => (pc.1, setAssoc pc.2 nm (strSub inp p pc.1)))
  | Regex.bol, _, p, c => if p = 0 then [(p, c)] else []
  | Regex.eol, inp, p, c => if p = inp.length then [(p, c)] else []

/-- Go's leftmost match search (`FindString`/`FindStringSubmatch`): try
successive start positions; at the first position with any match, return
the backtracking engine's first result as (start, end, captures).
Structurally recursive on a fuel covering the remaining start positions. -/
def findFromAux (re : Regex) (inp : List Char) : Nat → Nat → Option (Nat × Nat × Caps)
  | 0, _ => none
  | fuel + 1, p =>
    match rxm re inp p [] with
    | pc :: _ => some (p, pc.1, pc.2)
    | [] => if p < inp.length then findFromAux re inp fuel (p + 1) else none

def findFrom (re : Regex) (inp : List Char) (p : Nat) : Option (Nat × Nat × Caps) :=
  findFromAux re inp (inp.length + 1 - p) p

/-- Go `(*Regexp).FindString` (empty string when there is no match). -/
def goFindString (re : Regex) (s : String) : String :=
  match findFrom re s.data 0 with
  | some r => strSub s.data r.1 r.2.1
  | none => ""

/-- Go `(*Regexp).ReplaceAllLiteralString(s, "")`: remove every match,
resuming the scan after each removed match (advancing one character over
an empty-width match, as Go does). -/
def replAllRe (re : Regex) (inp : List Char) (fuel : Nat) : List Char :=
  match fuel with
  | 0 => inp
  | fuel + 1 =>
    match findFrom re inp 0 with
    | none => inp
    | some (i, j, _) =>
      if i < j then inp.take i ++ replAllRe re (inp.drop j) fuel
      else
        match inp.drop i with
        | [] => inp.take i
        | c :: rest => inp.take i ++ [c] ++ replAllRe re rest fuel

/-- Go `(*Regexp).SubexpNames` without its leading entry for the whole
match: capture group names in order of their opening parentheses (empty
string for an unnamed group). -/
def Regex.names : Regex → List String
  | Regex.grp nm r => nm :: r.names
  | Regex.seq a b => a.names ++ b.names
  | Regex.alt a b => a.names ++ b.names
  | Regex.plus r => r.names
  | Regex.repn r _ => r.names
  | _ => []

/-! ## Dispatch (src/router.go lines 215-268) -/

/-- A `map[string]interface{}` value stored by `Dispatch`: an `int` or a
string. -/
inductive GoVal where
  | i (n : Int)
  | s (v : String)
deriving DecidableEq

abbrev Params := List (String × GoVal)

/-- The fixed extension regex of `Dispatch` (line 216). -/
def extPattern : String := "\\.([^\\.]+)$"

def extRegexAst : Regex := (parseRegex extPattern).getD Regex.eps

/-- Lines 216-224 of `Dispatch`: extract the extension and strip it from
the path.  Returns (ext, stripped path). -/
def extSplitGo (path : String) : String × String :=
  let em := goFindString extRegexAst path
  if em ≠ "" then
    (goReplaceOnce em "." "", ⟨replAllRe extRegexAst path.data (path.data.length + 1)⟩)
  else ("", path)

/-- `compiled.SubexpNames()` for a chunk pattern string (index 0 names the
whole match). -/
def chunkNames (chunk : String) : List String :=
  "" :: ((parseRegex chunk).map Regex.names).getD []

/-- `compiled.FindStringSubmatch(path)`: `none` is Go's nil slice; on a
match, the whole-match text and the capture state. -/
def goFindSS (chunk : String) (s : String) : Option (String × Caps) :=
  (parseRegex chunk).bind fun re =>
    (findFrom re s.data 0).map fun r => (strSub s.data r.1 r.2.1, r.2.2)

/-- The `for i, name := range compiled.SubexpNames()` loop of `Dispatch`
(lines 235-262), threading the router (for its `matched` field) and the
params map. -/
def paramStep (m0 e2 : String) (caps : Caps) :
    List (Nat × String) → Router × Params → Router × Params
  | [], st => st
  | (i, nm) :: rest, (rr, params) =>
    let mi := if i = 0 then m0 else (caps.lookup nm).getD ""
    if i = 0 ∨ mi = "" then
      if params.length = 0 then paramStep m0 e2 caps rest (rr, params)
      else (rr, params)
    else if params.length = 0 then
      paramStep m0 e2 caps rest
        ({ rr with matched := rr.routes.lookup nm },
          setAssoc params "ext" (GoVal.s e2))
    else
      match goAtoi mi with
      | some v => paramStep m0 e2 caps rest (rr, setAssoc params nm (GoVal.i v))
      | none => paramStep m0 e2 caps rest (rr, setAssoc params nm (GoVal.s mi))

/-- The `for _, compiled := range r.regexesByMethod[method]` loop of
`Dispatch` (lines 230-265): on the first matching chunk, run the names
loop and return `r.matched` and the params; otherwise `nil, nil`. -/
def dispatchChunks (path2 e2 : String) (rr : Router) :
    List String → Router × Option Route × Params
  | [] => (rr, none, [])
  | chunk :: rest =>
    match goFindSS chunk path2 with
    | none => dispatchChunks path2 e2 rr rest
    | some (m0, caps) =>
      let st := paramStep m0 e2 caps (chunkNames chunk).enum (rr, [])
      (st.1, st.1.matched, st.2)

/-- src/router.go lines 215-268.  The returned `Router` carries the state
of the receiver after the call (Go mutates `r.matched` in place). -/
def Router.Dispatch (r : Router) (method path : String) :
    Router × Option Route × Params :=
  let es := extSplitGo path
  if r.extensionIsValid es.1 = false then (r, none, [])
  else dispatchChunks es.2 es.1 r (r.regexesByMethod.find method [])

/-! ## Concrete routers used by several claims -/

/-- A router with `n` GET routes named r0, r1, … with patterns /a0, /a1, …
registered in index order. -/
def routerN (n : Nat) : Router :=
  (List.range n).foldl
    (fun r i => (r.Get ("r" ++ natStr i) ("/a" ++ natStr i) []).1) New

/-- 18 GET routes: r0…r15 with distinct patterns, then r16 and r17 both
registered for the pattern /x (r16 first). -/
def router18 : Router :=
  let r := routerN 16
  let r1 := (r.Get "r16" "/x" []).1
  (r1.Get "r17" "/x" []).1

/-- The compiled round-trip router of the spec's property 5. -/
def r4router : Router :=
  ((New.Get "articles_read" "/articles/:channel/:id/:slug" []).1).Compile

/-- A compiled router whose only route's pattern is the literal path
"/a.b/c" (used for C6). -/
def rC6 : Router := ((New.Get "c6" "/a.b/c" []).1).Compile

/-- Modelled from the amended claim for C7: after alias expansion, if at
least one placeholder carries a parenthesized constraint then exactly the
constrained placeholders become named groups `(?P<name>constraint)` and
bare placeholders are left as literal `:name` text; if no placeholder
carries a constraint, every bare `:name` becomes `(?P<name>[^/]+)`. -/
def amendedPatternSpec (pattern : String) : String :=
  let p1 := goReplaceAll pattern "(int)" "([0-9]+)"
  let p2 := goReplaceAll p1 "(alpha)" "([a-z]+)"
  let p3 := goReplaceAll p2 "(alphanumeric)" "([a-z0-9]+)"
  let p4 := goReplaceAll p3 "(slug)" "([a-z0-9-]+)"
  let p5 := goReplaceAll p4 "(mongo)" "([0-9a-fA-F]\x7b24\x7d)"
  let p6 := goReplaceAll p5 "(md5)" "([0-9a-fA-F]\x7b32\x7d)"
  if hasNamedConstr p6.data then ⟨replaceNamedConstr groupTmpl p6.data⟩
  else ⟨replaceBareNamed p6.data⟩

lemma compileMethod_ne_nil (l : List Route) : compileMethod l ≠ [] := by
  simp [compileMethod]

/-! ## General characterization of the extension extraction (claim C6)

`extRegexAst` is the parse of `Dispatch`'s fixed pattern `\.([^\.]+)$`.
The lemmas below characterize `extSplitGo` on every path: the extracted
extension is the portion of the whole path after its last `.` provided
that portion is nonempty (it is then automatically dot-free), and the
stripped path is everything before that dot. -/

/-- Modelled from the spec (C6 as amended): split a path at its LAST dot
into (before, after), provided the after part is nonempty and dot-free;
`none` when the path has no dot or ends with its last dot. -/
def afterLastDot : List Char → Option (List Char × List Char)
  | [] => none
  | c :: rest =>
    match afterLastDot rest with
    | some (b, a) => some (c :: b, a)
    | none =>
      if c = '.' ∧ rest ≠ [] ∧ rest.all (fun x => x != '.') then some ([], rest)
      else none

/-- Modelled from the spec (C6 as amended): the extension of a path is the
portion after the last dot of the WHOLE path (not just of its final
segment), and the stripped path is the portion before that dot; a path
with no usable dot has extension `""` and is left unchanged. -/
def extSpec (path : String) : String × String :=
  match afterLastDot path.data with
  | some (b, a) => (⟨a⟩, ⟨b⟩)
  | none => ("", path)

/-- The negated character class `[^.]`. -/
abbrev clsND : Regex := Regex.cls true [('.', '.')]

lemma extRegexAst_eq :
    extRegexAst =
      Regex.seq (Regex.lit '.')
        (Regex.seq (Regex.grp "" (Regex.seq (Regex.plus clsND) Regex.eps))
          (Regex.seq Regex.eol Regex.eps)) := by
  decide

/-- Length of the maximal dot-free run of `inp` starting at position `p`. -/
def nonDotRun (inp : List Char) (p : Nat) : Nat :=
  ((inp.drop p).takeWhile (fun c => c != '.')).length

/-- The condition for the extension regex to match `inp` at position `p`:
a dot at `p` followed by at least one character, all of them dot-free up
to the end of the input. -/
def extCond (inp : List Char) (p : Nat) : Prop :=
  inp[p]? = some '.' ∧ 1 ≤ nonDotRun inp (p + 1) ∧
    p + 1 + nonDotRun inp (p + 1) = inp.length

instance (inp : List Char) (p : Nat) : Decidable (extCond inp p) := by
  unfold extCond
  infer_instance

lemma clsMatch_nd (d : Char) : clsMatch true [('.', '.')] d = (d != '.') := by
  unfold clsMatch
  simp only [List.any_cons, List.any_nil, Bool.or_false, if_true]
  by_cases h : d = '.'
  · subst h
    simp
  · have h2 : (decide ('.' ≤ d) && decide (d ≤ '.')) = false := by
      by_cases ha : '.' ≤ d
      · by_cases hb : d ≤ '.'
        · exact absurd (Char.le_antisymm hb ha) h
        · simp [hb]
      · simp [ha]
    rw [h2]
    simp [h]

lemma nonDotRun_zero_none (inp : List Char) (p : Nat) (h : inp[p]? = none) :
    nonDotRun inp p = 0 := by
  unfold nonDotRun
  have hlen : inp.length ≤ p := by
    by_contra hc
    rw [List.getElem?_eq_getElem (by omega)] at h
    cases h
  rw [List.drop_eq_nil_of_le hlen]
  rfl

lemma nonDotRun_zero_dot (inp : List Char) (p : Nat) (h : inp[p]? = some '.') :
    nonDotRun inp p = 0 := by
  obtain ⟨hlt, helem⟩ := List.getElem?_eq_some.mp h
  unfold nonDotRun
  rw [List.drop_eq_getElem_cons hlt, helem]
  simp

lemma nonDotRun_succ (inp : List Char) (p : Nat) (d : Char)
    (h : inp[p]? = some d) (hd : d ≠ '.') :
    nonDotRun inp p = nonDotRun inp (p + 1) + 1 := by
  obtain ⟨hlt, helem⟩ := List.getElem?_eq_some.mp h
  unfold nonDotRun
  rw [List.drop_eq_getElem_cons hlt, helem]
  simp [List.takeWhile_cons, hd]

lemma nonDotRun_le (inp : List Char) (p : Nat) :
    nonDotRun inp p ≤ inp.length - p := by
  unfold nonDotRun
  calc ((inp.drop p).takeWhile (fun c => c != '.')).length
      ≤ (inp.drop p).length := (List.takeWhile_prefix _).length_le
    _ = inp.length - p := by simp

lemma nonDotRun_pos_bound (inp : List Char) (p : Nat)
    (h : 1 ≤ nonDotRun inp p) : p + nonDotRun inp p ≤ inp.length := by
  have hle := nonDotRun_le inp p
  by_cases hp : p ≤ inp.length
  · omega
  · exfalso
    have : nonDotRun inp p = 0 := by
      unfold nonDotRun
      rw [List.drop_eq_nil_of_le (by omega)]
      rfl
    omega

/-- The list of end positions a greedy `[^.]+`-style iteration yields from
position `p`: `n` entries counting down from `p + n` to `p + 1`. -/
def descList (p n : Nat) (c : Caps) : List (Nat × Caps) :=
  (List.range n).map (fun k => (p + n - k, c))

lemma descList_shift (p r : Nat) (c : Caps) :
    descList p (r + 1) c = descList (p + 1) r c ++ [(p + 1, c)] := by
  unfold descList
  rw [List.range_succ, List.map_append]
  congr 1
  · apply List.map_congr_left
    intro k _
    have h : p + (r + 1) - k = p + 1 + r - k := by omega
    rw [h]
  · have h : p + (r + 1) - r = p + 1 := by omega
    simp [h]

/-- The `[^.]` step of the matcher in explicit form. -/
lemma rxm_clsND_eq (inp : List Char) (p : Nat) (c : Caps) :
    rxm clsND inp p c =
      match inp[p]? with
      | some d => if (d != '.') = true then [(p + 1, c)] else []
      | none => [] := by
  have h : rxm clsND inp p c =
      match inp[p]? with
      | some d => if clsMatch true [('.', '.')] d then [(p + 1, c)] else []
      | none => [] := rfl
  rw [h]
  cases inp[p]? with
  | none => rfl
  | some d => simp [clsMatch_nd]

lemma starLoop_clsND (inp : List Char) :
    ∀ fuel p c, nonDotRun inp p ≤ fuel →
      starLoop (fun i q d => rxm clsND i q d) fuel inp p c =
        descList p (nonDotRun inp p) c ++ [(p, c)] := by
  intro fuel
  induction fuel with
  | zero =>
    intro p c h
    have h0 : nonDotRun inp p = 0 := Nat.le_zero.mp h
    simp [starLoop, h0, descList]
  | succ fuel ih =>
    intro p c h
    simp only [starLoop]
    rw [rxm_clsND_eq]
    cases hg : inp[p]? with
    | none =>
      have h0 := nonDotRun_zero_none inp p hg
      simp [h0, descList]
    | some d =>
      by_cases hd : d = '.'
      · subst hd
        have h0 := nonDotRun_zero_dot inp p hg
        simp [h0, descList]
      · have hs := nonDotRun_succ inp p d hg hd
        have hle : nonDotRun inp (p + 1) ≤ fuel := by omega
        have ih1 := ih (p + 1) c hle
        rw [hs, descList_shift]
        simp [hd, Nat.lt_succ_self, ih1, List.append_assoc]

lemma rxm_plus_clsND (inp : List Char) (p : Nat) (c : Caps) :
    rxm (Regex.plus clsND) inp p c = descList p (nonDotRun inp p) c := by
  have hunf : rxm (Regex.plus clsND) inp p c =
      (rxm clsND inp p c).flatMap
        (fun pc =>
          if p < pc.1 then
            starLoop (fun i q d => rxm clsND i q d) (inp.length + 1) inp pc.1 pc.2
          else [pc]) := rfl
  rw [hunf, rxm_clsND_eq]
  cases hg : inp[p]? with
  | none =>
    have h0 := nonDotRun_zero_none inp p hg
    simp [h0, descList]
  | some d =>
    by_cases hd : d = '.'
    · subst hd
      have h0 := nonDotRun_zero_dot inp p hg
      simp [h0, descList]
    · have hs := nonDotRun_succ inp p d hg hd
      have hle : nonDotRun inp (p + 1) ≤ inp.length + 1 :=
        le_trans (le_trans (nonDotRun_le inp (p + 1)) (Nat.sub_le _ _)) (by omega)
      have hstar := starLoop_clsND inp (inp.length + 1) (p + 1) c hle
      rw [hs, descList_shift]
      simp [hd, Nat.lt_succ_self, hstar]

lemma rxm_seq_eps (X : Regex) (inp : List Char) (p : Nat) (c : Caps) :
    rxm (Regex.seq X Regex.eps) inp p c = rxm X inp p c := by
  have h : rxm (Regex.seq X Regex.eps) inp p c =
      (rxm X inp p c).flatMap (fun pc => rxm Regex.eps inp pc.1 pc.2) := rfl
  have h2 : ∀ pc : Nat × Caps, rxm Regex.eps inp pc.1 pc.2 = [pc] := fun _ => rfl
  rw [h]
  simp [h2]

lemma flatMap_eol_all_ne (len : Nat) (l : List (Nat × Caps))
    (h : ∀ x ∈ l, x.1 ≠ len) :
    (l.flatMap fun pc => if pc.1 = len then [pc] else []) = [] := by
  apply List.flatMap_eq_nil_iff.mpr
  intro x hx
  rw [if_neg (h x hx)]

lemma flatMap_eol_cons (len : Nat) (x : Nat × Caps) (l : List (Nat × Caps))
    (hx : x.1 = len) (hl : ∀ y ∈ l, y.1 ≠ len) :
    ((x :: l).flatMap fun pc => if pc.1 = len then [pc] else []) = [x] := by
  simp only [List.flatMap_cons, if_pos hx]
  rw [flatMap_eol_all_ne len l hl]
  simp

lemma descList_cons (p n : Nat) (c : Caps) :
    descList p (n + 1) c = (p + (n + 1), c) :: descList p n c := by
  unfold descList
  rw [List.range_succ_eq_map]
  simp only [List.map_cons, Nat.sub_zero, List.map_map]
  congr 1
  apply List.map_congr_left
  intro k hk
  have h : p + (n + 1) - (k + 1) = p + n - k := by omega
  simp [Function.comp, Nat.succ_eq_add_one, h]

lemma descList_fst_mem (p n : Nat) (c : Caps) (x : Nat × Caps)
    (hx : x ∈ descList p n c) : p + 1 ≤ x.1 ∧ x.1 ≤ p + n := by
  unfold descList at hx
  simp only [List.mem_map, List.mem_range] at hx
  obtain ⟨k, hk, rfl⟩ := hx
  simp
  omega

/-- The whole extension regex, characterized at every start position. -/
lemma rxm_extAst (inp : List Char) (p : Nat) :
    rxm extRegexAst inp p [] =
      if extCond inp p then
        [(inp.length, [("", strSub inp (p + 1) inp.length)])]
      else [] := by
  rw [extRegexAst_eq]
  have hunf : rxm (Regex.seq (Regex.lit '.')
      (Regex.seq (Regex.grp "" (Regex.seq (Regex.plus clsND) Regex.eps))
        (Regex.seq Regex.eol Regex.eps))) inp p [] =
      (rxm (Regex.lit '.') inp p []).flatMap (fun pc =>
        rxm (Regex.seq (Regex.grp "" (Regex.seq (Regex.plus clsND) Regex.eps))
          (Regex.seq Regex.eol Regex.eps)) inp pc.1 pc.2) := rfl
  have hlit : rxm (Regex.lit '.') inp p [] =
      match inp[p]? with
      | some d => if d = '.' then [(p + 1, ([] : Caps))] else []
      | none => [] := rfl
  rw [hunf]
  cases hg : inp[p]? with
  | none =>
    have hnc : ¬ extCond inp p := fun hc => by
      have hc1 := hc.1
      rw [hg] at hc1
      cases hc1
    have hlit0 : rxm (Regex.lit '.') inp p [] = [] := by
      rw [hlit, hg]
    rw [hlit0]
    simp [hnc]
  | some d =>
    by_cases hd : d = '.'
    · subst hd
      have hlit1 : rxm (Regex.lit '.') inp p [] = [(p + 1, ([] : Caps))] := by
        rw [hlit, hg]
        rfl
      rw [hlit1]
      simp only [List.flatMap_cons, List.flatMap_nil, List.append_nil]
      have hT : rxm (Regex.seq (Regex.grp "" (Regex.seq (Regex.plus clsND) Regex.eps))
          (Regex.seq Regex.eol Regex.eps)) inp (p + 1) [] =
          (rxm (Regex.grp "" (Regex.seq (Regex.plus clsND) Regex.eps)) inp (p + 1)
            []).flatMap
            (fun pc => rxm (Regex.seq Regex.eol Regex.eps) inp pc.1 pc.2) := rfl
      have hG : rxm (Regex.grp "" (Regex.seq (Regex.plus clsND) Regex.eps)) inp (p + 1)
          [] =
          (rxm (Regex.seq (Regex.plus clsND) Regex.eps) inp (p + 1) []).map
            (fun pc => (pc.1, setAssoc pc.2 "" (strSub inp (p + 1) pc.1))) := rfl
      have hE : ∀ pc : Nat × Caps,
          rxm (Regex.seq Regex.eol Regex.eps) inp pc.1 pc.2 =
            if pc.1 = inp.length then [pc] else [] := by
        intro pc
        rw [rxm_seq_eps]
        rfl
      rw [hT, hG, rxm_seq_eps, rxm_plus_clsND]
      simp only [hE]
      have hsa : ∀ e : Nat, setAssoc ([] : Caps) "" (strSub inp (p + 1) e) =
          [("", strSub inp (p + 1) e)] := fun _ => rfl
      set r := nonDotRun inp (p + 1) with hr
      rcases Nat.eq_zero_or_pos r with hr0 | hrpos
      · have hnc : ¬ extCond inp p := fun hc => by
          have h21 := hc.2.1
          omega
        rw [hr0]
        simp [descList, hnc]
      · by_cases hlen : p + 1 + r = inp.length
        · have hcond : extCond inp p := ⟨hg, by omega, by omega⟩
          rw [if_pos hcond]
          obtain ⟨r2, hr2⟩ : ∃ r2, r = r2 + 1 := ⟨r - 1, by omega⟩
          rw [hr2, descList_cons, List.map_cons]
          rw [flatMap_eol_cons inp.length _ _
            (by simp
                omega)
            (by
              intro y hy
              simp only [List.mem_map] at hy
              obtain ⟨z, hz, rfl⟩ := hy
              have hzb := descList_fst_mem _ _ _ _ hz
              simp
              omega)]
          have hlen2 : p + 1 + (r2 + 1) = inp.length := by omega
          simp [hsa, hlen2]
        · have hnc : ¬ extCond inp p := fun hc => by
            have h22 := hc.2.2
            omega
          rw [if_neg hnc]
          apply flatMap_eol_all_ne
          intro x hx
          simp only [List.mem_map] at hx
          obtain ⟨z, hz, rfl⟩ := hx
          have hzb := descList_fst_mem _ _ _ _ hz
          have hble : p + 1 + r ≤ inp.length := by
            have := nonDotRun_pos_bound inp (p + 1) (by omega)
            omega
          simp
          omega
    · have hnc : ¬ extCond inp p := fun hc => by
        have hc1 := hc.1
        rw [hg] at hc1
        exact hd (Option.some.inj hc1)
      have hlit0 : rxm (Regex.lit '.') inp p [] = [] := by
        rw [hlit, hg]
        simp [hd]
      rw [hlit0]
      simp [hnc]

/-- `findFromAux` finds the unique position satisfying `extCond`. -/
lemma findFromAux_ext_some (inp : List Char) (p0 : Nat) (h : extCond inp p0)
    (hmin : ∀ q, q < p0 → ¬ extCond inp q) :
    ∀ fuel p, p ≤ p0 → p0 < p + fuel →
      findFromAux extRegexAst inp fuel p =
        some (p0, inp.length, [("", strSub inp (p0 + 1) inp.length)]) := by
  intro fuel
  induction fuel with
  | zero =>
    intro p hp hlt
    omega
  | succ fuel ih =>
    intro p hp hlt
    simp only [findFromAux]
    rw [rxm_extAst]
    by_cases hpp : p = p0
    · subst hpp
      rw [if_pos h]
    · have hncond := hmin p (by omega)
      rw [if_neg hncond]
      have hplen : p < inp.length := by
        have := (List.getElem?_eq_some.mp h.1).1
        omega
      rw [if_pos hplen]
      exact ih (p + 1) (by omega) (by omega)

lemma findFromAux_ext_none (inp : List Char) (h : ∀ q, ¬ extCond inp q) :
    ∀ fuel p, findFromAux extRegexAst inp fuel p = none := by
  intro fuel
  induction fuel with
  | zero => intro p; rfl
  | succ fuel ih =>
    intro p
    simp only [findFromAux]
    rw [rxm_extAst, if_neg (h p)]
    by_cases hp : p < inp.length
    · rw [if_pos hp]
      exact ih (p + 1)
    · rw [if_neg hp]

lemma afterLastDot_none_of_all (l : List Char) (h : ∀ x ∈ l, x ≠ '.') :
    afterLastDot l = none := by
  induction l with
  | nil => rfl
  | cons c rest ih =>
    have hr := ih (fun x hx => h x (List.mem_cons_of_mem _ hx))
    have hc : c ≠ '.' := h c (List.mem_cons_self _ _)
    simp [afterLastDot, hr, hc]

lemma afterLastDot_some_iff :
    ∀ (s b a : List Char), afterLastDot s = some (b, a) ↔
      (s = b ++ '.' :: a ∧ a ≠ [] ∧ ∀ x ∈ a, x ≠ '.') := by
  intro s
  induction s with
  | nil =>
    intro b a
    constructor
    · intro h
      cases h
    · rintro ⟨h, -, -⟩
      exact absurd h (by simp)
  | cons c rest ih =>
    intro b a
    constructor
    · intro h
      simp only [afterLastDot] at h
      cases hrec : afterLastDot rest with
      | some ba =>
        obtain ⟨b1, a1⟩ := ba
        rw [hrec] at h
        simp only [Option.some.injEq, Prod.mk.injEq] at h
        obtain ⟨hb, ha⟩ := h
        obtain ⟨hs1, hne1, hall1⟩ := (ih b1 a1).mp hrec
        subst hb
        subst ha
        exact ⟨by simp [hs1], hne1, hall1⟩
      | none =>
        rw [hrec] at h
        by_cases hcond : (c = '.' ∧ rest ≠ [] ∧ rest.all (fun x => x != '.'))
        · rw [if_pos hcond] at h
          simp only [Option.some.injEq, Prod.mk.injEq] at h
          obtain ⟨hb, ha⟩ := h
          subst hb
          subst ha
          obtain ⟨hc, hne1, hall1⟩ := hcond
          subst hc
          refine ⟨by simp, hne1, ?_⟩
          intro x hx
          have := List.all_eq_true.mp hall1 x hx
          simpa using this
        · rw [if_neg hcond] at h
          cases h
    · rintro ⟨hs, ha, hall⟩
      cases b with
      | nil =>
        simp only [List.nil_append] at hs
        injection hs with hc hrest
        subst hc
        subst hrest
        have hrecnone : afterLastDot rest = none := afterLastDot_none_of_all rest hall
        have hcondp : ('.' : Char) = '.' ∧ rest ≠ [] ∧
            rest.all (fun x => x != '.') :=
          ⟨rfl, ha, List.all_eq_true.mpr (fun x hx => by simpa using hall x hx)⟩
        simp [afterLastDot, hrecnone, hcondp]
      | cons c1 b1 =>
        simp only [List.cons_append] at hs
        injection hs with hc hrest
        subst hc
        have hrec := (ih b1 a).mpr ⟨hrest, ha, hall⟩
        simp only [afterLastDot, hrec]

lemma extCond_drop_all (inp : List Char) (p : Nat) (h : extCond inp p) :
    ∀ x ∈ inp.drop (p + 1), x ≠ '.' := by
  have hfull : (inp.drop (p + 1)).takeWhile (fun c => c != '.') =
      inp.drop (p + 1) := by
    apply List.IsPrefix.eq_of_length (List.takeWhile_prefix _)
    have h22 := h.2.2
    unfold nonDotRun at h22
    have hd : (inp.drop (p + 1)).length = inp.length - (p + 1) := by simp
    omega
  intro x hx
  have := List.takeWhile_eq_self_iff.mp hfull x hx
  simpa using this

lemma extCond_no_dot_after (inp : List Char) (p : Nat) (h : extCond inp p) :
    ∀ q, p < q → inp[q]? ≠ some '.' := by
  intro q hpq hcontra
  have heq : (inp.drop (p + 1))[q - (p + 1)]? = inp[q]? := by
    rw [List.getElem?_drop]
    congr 1
    omega
  rw [hcontra] at heq
  exact extCond_drop_all inp p h '.' (List.getElem?_mem heq) rfl

lemma extCond_min (inp : List Char) (p0 : Nat) (h : extCond inp p0) :
    ∀ q, q < p0 → ¬ extCond inp q := fun q hq hcq =>
  extCond_no_dot_after inp q hcq p0 hq h.1

lemma drop_split (b a : List Char) :
    (b ++ '.' :: a).drop (b.length + 1) = a := by
  have h : b ++ '.' :: a = (b ++ ['.']) ++ a := by simp
  have h2 : b.length + 1 = (b ++ ['.']).length := by simp
  rw [h, h2, List.drop_left]

lemma getElem_split (b a : List Char) : (b ++ '.' :: a)[b.length]? = some '.' := by
  rw [List.getElem?_append_right (le_refl _)]
  simp

lemma nonDotRun_split (b a : List Char) (hall : ∀ x ∈ a, x ≠ '.') :
    nonDotRun (b ++ '.' :: a) (b.length + 1) = a.length := by
  unfold nonDotRun
  rw [drop_split]
  rw [List.takeWhile_eq_self_iff.mpr (fun x hx => by simpa using hall x hx)]

lemma extCond_split (b a : List Char) (ha : a ≠ []) (hall : ∀ x ∈ a, x ≠ '.') :
    extCond (b ++ '.' :: a) b.length := by
  refine ⟨getElem_split b a, ?_, ?_⟩
  · rw [nonDotRun_split b a hall]
    exact List.length_pos.mpr ha
  · rw [nonDotRun_split b a hall]
    simp only [List.length_append, List.length_cons]
    omega

lemma not_extCond_of_none (s : List Char) (h : afterLastDot s = none) (p : Nat) :
    ¬ extCond s p := by
  intro hc
  obtain ⟨hplen, hpelem⟩ := List.getElem?_eq_some.mp hc.1
  have hsplit : s = s.take p ++ '.' :: s.drop (p + 1) := by
    conv_lhs => rw [← List.take_append_drop p s]
    congr 1
    rw [List.drop_eq_getElem_cons hplen, hpelem]
  have hA : ∀ x ∈ s.drop (p + 1), x ≠ '.' := extCond_drop_all s p hc
  have hne : s.drop (p + 1) ≠ [] := by
    have h21 := hc.2.1
    have h22 := hc.2.2
    intro hnil
    have hz : (s.drop (p + 1)).length = 0 := by rw [hnil]; rfl
    simp only [List.length_drop] at hz
    omega
  have hsome := (afterLastDot_some_iff s (s.take p) (s.drop (p + 1))).mpr
    ⟨hsplit, hne, hA⟩
  rw [h] at hsome
  cases hsome

/-- C6, the heart of the amended claim: on every path, the extension the
code extracts is the portion of the whole path after its last dot (when
nonempty), and the path is stripped to the portion before that dot. -/
theorem extSplitGo_eq_extSpec (path : String) : extSplitGo path = extSpec path := by
  simp only [extSplitGo, extSpec]
  cases hald : afterLastDot path.data with
  | none =>
    have hnone : ∀ q, ¬ extCond path.data q := not_extCond_of_none _ hald
    have hff : findFrom extRegexAst path.data 0 = none := by
      unfold findFrom
      exact findFromAux_ext_none _ hnone _ _
    have hgf : goFindString extRegexAst path = "" := by
      unfold goFindString
      rw [hff]
    rw [hgf]
    simp
  | some ba =>
    obtain ⟨b, a⟩ := ba
    obtain ⟨hsplit, hne, hall⟩ := (afterLastDot_some_iff path.data b a).mp hald
    have hcond : extCond path.data b.length := by
      rw [hsplit]
      exact extCond_split b a hne hall
    have hmin := extCond_min path.data b.length hcond
    have hp0len : b.length < path.data.length := (List.getElem?_eq_some.mp hcond.1).1
    have hff : findFrom extRegexAst path.data 0 =
        some (b.length, path.data.length,
          [("", strSub path.data (b.length + 1) path.data.length)]) := by
      unfold findFrom
      exact findFromAux_ext_some _ _ hcond hmin _ 0 (Nat.zero_le _) (by omega)
    have hdropb : path.data.drop b.length = '.' :: a := by
      conv_lhs => rw [hsplit]
      exact List.drop_left b _
    have hlen : path.data.length = b.length + 1 + a.length := by
      rw [hsplit]
      simp only [List.length_append, List.length_cons]
      omega
    have hsub0 : strSub path.data b.length path.data.length = ⟨'.' :: a⟩ := by
      unfold strSub
      rw [hdropb]
      congr 1
      apply List.take_of_length_le
      simp only [List.length_cons]
      omega
    have hgf : goFindString extRegexAst path = ⟨'.' :: a⟩ := by
      unfold goFindString
      rw [hff]
      exact hsub0
    rw [hgf]
    have hne2 : (⟨'.' :: a⟩ : String) ≠ "" := by
      intro hcon
      have h2 := congrArg String.data hcon
      simp at h2
    rw [if_pos hne2]
    have hrepl : goReplaceOnce ⟨'.' :: a⟩ "." "" = ⟨a⟩ := by
      have hpref : (['.'] : List Char).isPrefixOf ('.' :: a) = true := by simp
      show (⟨goReplaceOnceL ('.' :: a) ['.'] []⟩ : String) = ⟨a⟩
      rw [show goReplaceOnceL ('.' :: a) ['.'] [] =
        (if (['.'] : List Char) ≠ [] ∧
            (['.'] : List Char).isPrefixOf ('.' :: a) = true then
          [] ++ ('.' :: a).drop (['.'] : List Char).length
        else '.' :: goReplaceOnceL a ['.'] []) from rfl]
      rw [if_pos ⟨by simp, hpref⟩]
      simp
    have hstrip : replAllRe extRegexAst path.data (path.data.length + 1) = b := by
      simp only [replAllRe, hff, hp0len, if_true]
      rw [List.drop_length]
      have hffnil : findFrom extRegexAst [] 0 = none := by
        unfold findFrom
        apply findFromAux_ext_none
        intro q hcq
        exact absurd hcq.1 (by simp)
      have hnil : ∀ f, replAllRe extRegexAst [] f = [] := by
        intro f
        cases f with
        | zero => rfl
        | succ f2 =>
          simp only [replAllRe, hffnil]
      rw [hnil, List.append_nil]
      conv_lhs => rw [hsplit]
      exact List.take_left b _
    rw [hrepl, hstrip]

/-! ## Claim theorems -/

/-! ## Claim theorems -/

set_option maxRecDepth 100000

/-- C1: the compiled chunk lists do NOT partition the routes into chunks of
at most 15.  With 16 registered GET routes, `Compile` produces two chunks:
the first holds all 16 route fragments (16 alternatives = 15 `|`
separators, the close only fires at index 15, i.e. after the 16th entry),
and because the accumulated pattern is never reset, the second chunk is
the entire first chunk wrapped again in `^(?:…)$` instead of an alternation
of remaining route fragments. -/
theorem C1_chunks_exceed_15 :
    ((routerN 16).Compile.regexesByMethod.get).map (fun s => s.data.count '|') =
      [15, 15] ∧
    ((routerN 16).Compile.regexesByMethod.get).getD 1 "" =
      "^(?:" ++ ((routerN 16).Compile.regexesByMethod.get).getD 0 "" ++ ")$" := by
  decide

/-- C2 counterexample: calling `Compile` twice with no intervening
registration does not leave the per-method chunk tables equivalent to
calling it once (on a router with one GET route the table doubles). -/
theorem C2_counterexample :
    ¬ ((routerN 1).Compile.Compile.regexesByMethod.get =
        (routerN 1).Compile.regexesByMethod.get) := by
  decide

/-- C2 amended: `Compile` discards nothing — for every router state it
appends a freshly compiled chunk list (a pure function of the current
route table) to each method's existing chunk table, leaves the route
tables unchanged, and is therefore never idempotent: a second `Compile`
appends a second identical copy. -/
theorem C2_amended_compile_appends (r : Router) :
    r.Compile.regexesByMethod.get =
      r.regexesByMethod.get ++ compileMethod r.routesByMethod.get ∧
    r.Compile.regexesByMethod.post =
      r.regexesByMethod.post ++ compileMethod r.routesByMethod.post ∧
    r.Compile.regexesByMethod.put =
      r.regexesByMethod.put ++ compileMethod r.routesByMethod.put ∧
    r.Compile.regexesByMethod.delete =
      r.regexesByMethod.delete ++ compileMethod r.routesByMethod.delete ∧
    r.Compile.routesByMethod = r.routesByMethod ∧
    r.Compile.routes = r.routes ∧
    r.Compile.Compile.regexesByMethod.get =
      (r.regexesByMethod.get ++ compileMethod r.routesByMethod.get) ++
        compileMethod r.routesByMethod.get ∧
    r.Compile.Compile.regexesByMethod.get ≠ r.Compile.regexesByMethod.get := by
  refine ⟨rfl, rfl, rfl, rfl, rfl, rfl, rfl, fun h => ?_⟩
  have h2 := congrArg List.length h
  simp only [Router.Compile, List.length_append] at h2
  exact compileMethod_ne_nil r.routesByMethod.get
    (List.length_eq_zero.mp (by omega))

/-- C3: the first-registered route does not always win.  In `router18`,
r16 and r17 both match the stripped path "/x" and r16 was registered
first, but the compile bug embeds chunk 1's anchored text before r16's
fragment in chunk 2, making r16's alternative unmatchable, so `Dispatch`
returns the later route r17. -/
theorem C3_first_registered_loses :
    ((router18.Compile.Dispatch "GET" "/x").2.1).map Route.Name = some "r17" ∧
    ¬ (((router18.Compile.Dispatch "GET" "/x").2.1).map Route.Name = some "r16") := by
  decide

/-- C4: round-trip of URL generation and dispatch for
`articles_read` = `/articles/:channel/:id/:slug` with
channel="news", id=5, slug="x-y": the generated URL is
"/articles/news/5/x-y", dispatching GET on it returns the
`articles_read` route, and the parameters are ext="", channel="news",
id=5 (as an integer) and slug="x-y". -/
theorem C4_roundtrip :
    r4router.URL "articles_read"
        [UrlArg.s "channel", UrlArg.s "news", UrlArg.s "id", UrlArg.i 5,
          UrlArg.s "slug", UrlArg.s "x-y"] = some "/articles/news/5/x-y" ∧
    ((r4router.Dispatch "GET" "/articles/news/5/x-y").2.1).map Route.Name =
      some "articles_read" ∧
    (r4router.Dispatch "GET" "/articles/news/5/x-y").2.2 =
      [("ext", GoVal.s ""), ("channel", GoVal.s "news"), ("id", GoVal.i 5),
        ("slug", GoVal.s "x-y")] := by
  decide

/-- C5: `Dispatch` does write to state shared across calls — on a
successful match it stores the matched route into the router's `matched`
field (src/router.go line 248), so the router after the call differs from
the router before it. -/
theorem C5_dispatch_writes_matched :
    r4router.matched.isSome = false ∧
    ((r4router.Dispatch "GET" "/articles/news/5/x-y").1.matched).isSome = true := by
  decide

/-- C6 counterexample: for the path "/a.b/c" the final path segment "c"
contains no dot, so the claim as stated prescribes the extension "" (which
is whitelisted by default, so the path would be matched unchanged against
the compiled chunks); the code instead extracts everything after the last
dot of the WHOLE path — the slash-containing "b/c" — strips the path to
"/a", and rejects the request as no-match because "b/c" is not
whitelisted. -/
theorem C6_counterexample :
    (extSplitGo "/a.b/c").1 = "b/c" ∧
    ¬ ((extSplitGo "/a.b/c").1 = "") ∧
    (extSplitGo "/a.b/c").2 = "/a" ∧
    (rC6.Dispatch "GET" "/a.b/c").2.1.isNone = true := by
  decide

/-- C6 amended: for every dispatched path, the extracted extension is
exactly the portion after the last '.' of the WHOLE path provided that
portion is nonempty (it may contain '/'; it is empty when the path has no
dot or ends with its last dot), this suffix together with the dot is
stripped from the path before any chunk matching, and a path whose
extracted extension is not in the configured whitelist yields the
no-match result and leaves the router untouched. -/
theorem C6_amended_ext_of_whole_path (r : Router) (m path : String) :
    extSplitGo path = extSpec path ∧
    (r.extensionIsValid (extSplitGo path).1 = false →
      r.Dispatch m path = (r, none, [])) := by
  refine ⟨extSplitGo_eq_extSpec path, fun h => ?_⟩
  simp only [Router.Dispatch]
  rw [if_pos h]

/-- C6 amended, witness: the amended theorem applied to the concrete
router `rC6` and path "/a.b/c", whose extension "b/c" is not
whitelisted. -/
theorem C6_amended_witness :
    extSplitGo "/a.b/c" = extSpec "/a.b/c" ∧
    rC6.Dispatch "GET" "/a.b/c" = (rC6, none, []) := by
  have h := C6_amended_ext_of_whole_path rC6 "GET" "/a.b/c"
  exact ⟨h.1, h.2 (by decide)⟩

/-- C7 counterexample: in the mixed pattern `/a/:x(int)/:y` the bare
placeholder `:y` is NOT turned into a named capture group; it survives as
the literal text `:y` (only the constrained `:x(int)` becomes a group). -/
theorem C7_counterexample :
    (newRoute "GET" "m" "/a/:x(int)/:y" []).pattern = "/a/(?P<x>[0-9]+)/:y" ∧
    (newRoute "GET" "m" "/a/:x(int)/:y" []).pattern ≠
      "/a/(?P<x>[0-9]+)/(?P<y>[^/]+)" := by
  decide

/-- C7 amended: for every pattern, compilation produces
`amendedPatternSpec pattern`: if any placeholder (after alias expansion)
carries a constraint, exactly the constrained placeholders become
`(?P<name>constraint)` groups and bare placeholders stay literal `:name`
text; if none does, every bare `:name` becomes `(?P<name>[^/]+)`. -/
theorem C7_amended (method name pattern : String) (handlers : List Handler) :
    (newRoute method name pattern handlers).pattern = amendedPatternSpec pattern :=
  rfl

/-- C8: registering a second route under an existing name does not fail
and does not leave the table unchanged — it overwrites the by-name entry
and appends a second entry to the method list. -/
theorem C8_duplicate_name_overwrites :
    (((New.Get "a" "/x" []).1.Get "a" "/y" []).1.routes.lookup "a").map
        Route.pattern = some "/y" ∧
    ((New.Get "a" "/x" []).1.Get "a" "/y" []).1.routesByMethod.get.map
        Route.pattern = ["/x", "/y"] := by
  decide

/-- C9: group scoping neither composes nor restores.  Inside
`Group "/a" "a"` a nested `Group "/b" "b"` overwrites (not concatenates)
the prefixes, so the inner route is registered as `b_r` with pattern
`/b/x` (not `a_b_r` with `/a/b/x`); and on return from the nested group
both slots are reset to "" (not to the enclosing "/a"/"a" state), so a
subsequent registration in the outer group gets no prefix at all
(`s` with pattern `/y` instead of `a_s` with `/a/y`). -/
theorem C9_group_overwrites_and_resets :
    ((New.Group "/a" "a" (fun r =>
        ((r.Group "/b" "b" (fun ri => (ri.Get "r" "/x" []).1)).Get "s" "/y"
          []).1)).routes.lookup "b_r").map Route.pattern = some "/b/x" ∧
    ((New.Group "/a" "a" (fun r =>
        ((r.Group "/b" "b" (fun ri => (ri.Get "r" "/x" []).1)).Get "s" "/y"
          []).1)).routes.lookup "a_b_r").isNone = true ∧
    ((New.Group "/a" "a" (fun r =>
        ((r.Group "/b" "b" (fun ri => (ri.Get "r" "/x" []).1)).Get "s" "/y"
          []).1)).routes.lookup "s").map Route.pattern = some "/y" ∧
    ((New.Group "/a" "a" (fun r =>
        ((r.Group "/b" "b" (fun ri => (ri.Get "r" "/x" []).1)).Get "s" "/y"
          []).1)).routes.lookup "a_s").isNone = true := by
  decide

/-- C10: `Post`, `Put` and `Delete` pass their whole variadic handler
slice as a single `interface{}` argument, so the created route's
`Handlers` list always has length 1 and contains the whole slice, while
`Get` spreads the arguments, so its route's `Handlers` list is the
argument list itself (length n). -/
theorem C10_post_put_delete_wrap_handlers (r : Router) (hs : List Handler)
    (name pattern : String) :
    ((r.Post name pattern hs).2).Handlers = [Handler.slice hs] ∧
    ((r.Put name pattern hs).2).Handlers = [Handler.slice hs] ∧
    ((r.Delete name pattern hs).2).Handlers = [Handler.slice hs] ∧
    ((r.Post name pattern hs).2).Handlers.length = 1 ∧
    ((r.Get name pattern hs).2).Handlers = hs ∧
    ((r.Get name pattern hs).2).Handlers.length = hs.length :=
  ⟨rfl, rfl, rfl, rfl, rfl, rfl⟩

end GoRouter
